import Mathlib

/-!
Verification of the board-state engine of the "kule" color-lines game
(`Game.ts` / `Ball.ts`): grid model, `popFives` run detection and scoring,
`randomCells` spawning, `getPath` breadth-first pathfinding, and the target
branch of `handleClicks`.  DOM/rendering effects are abstracted away; the
grid is modelled as the colour content of each cell together with the
numeric `field` array the source keeps in parallel.
-/

set_option maxHeartbeats 1000000
set_option maxRecDepth 100000

/-- Board side length, `Game.size = 9` in the source. -/
def size : ℕ := 9

/-- Number of balls spawned per batch, `Game.ballCount = 3`. -/
def ballCount : ℕ := 3

/-- The seven ball colours of `Game.colors`. -/
inductive Color where
  | black | white | red | lime | blue | orange | yellow
deriving DecidableEq

/-- A cell coordinate.  The source stores plain JS numbers and neighbour
arithmetic can step off the board before the bounds check, so coordinates
are integers. -/
abbrev Pos := ℤ × ℤ

/-- The in-bounds test `newX >= 0 && newX < Game.size && newY >= 0 && newY < Game.size`. -/
def inB (c : Pos) : Prop := 0 ≤ c.1 ∧ c.1 < 9 ∧ 0 ≤ c.2 ∧ c.2 < 9

instance : DecidablePred inB := fun c => by unfold inB; infer_instance

/-- All board cells in row-major order, mirroring the nested
`for i ... for j ...` loops of the source. -/
def cellsL : List Pos :=
  (List.range size).flatMap fun i => (List.range size).map fun j => (Int.ofNat i, Int.ofNat j)

/-- Count of cells with `field[i][j] == 0`, as computed by the `emptyCells`
scans in `randomCells` and `popFives`. -/
def emptyCount (field : Pos → ℤ) : ℕ :=
  (cellsL.filter fun c => decide (field c = 0)).length

/-- The four scan directions of `popFives`: horizontal, vertical,
diagonal right, diagonal left. -/
def popDirs : List Pos := [(1, 0), (0, 1), (1, 1), (1, -1)]

/-- Position reached after stepping `i` times from `s` in direction `d`
(`newX = x + i*incrX`, `newY = y + i*incrY`). -/
def stepN (s d : Pos) (i : ℕ) : Pos := (s.1 + (i : ℤ) * d.1, s.2 + (i : ℤ) * d.2)

/-- One `checkDirection` call of `popFives`: starting at `s`, scan up to 5
cells in direction `d`, stopping (`break`) at the first cell that is out of
bounds or does not hold the start colour; the scanned cells are marked for
deletion exactly when the scan reached length 5. -/
def checkDirection (g : Pos → Option Color) (s d : Pos) : List Pos :=
  match g s with
  | none => []
  | some col =>
      if 5 ≤ (((List.range 5).map (stepN s d)).takeWhile
          fun q => decide (inB q) && decide (g q = some col)).length then
        ((List.range 5).map (stepN s d)).takeWhile
          fun q => decide (inB q) && decide (g q = some col)
      else []

/-- The `toDelete` set of `popFives`: marks accumulated over every cell and
every direction, de-duplicated as by the JS `Set`. -/
def detect (g : Pos → Option Color) : Finset Pos :=
  (cellsL.flatMap fun s => popDirs.flatMap fun d => checkDirection g s d).toFinset

/-- Result of one `popFives` call: the new cell colours, the new `field`
array, the new score, the returned `popped` flag, and whether the
zero-empty-cells check at the end of `popFives` fired `Game.end()`. -/
structure PopResult where
  g : Pos → Option Color
  field : Pos → ℤ
  points : ℕ
  popped : Bool
  terminal : Bool

/-- The `popFives` routine: compute `toDelete`, mark those cells `-1` in
`field`, then sweep the grid removing every `-1` cell (ball removed, field
reset to 0, one point per cell), and finally count empty cells to decide
whether the game ends. -/
def popFives (g : Pos → Option Color) (field : Pos → ℤ) (points : ℕ) : PopResult :=
  let toDelete := detect g
  let marked : Pos → ℤ := fun c => if c ∈ toDelete then -1 else field c
  let g' : Pos → Option Color := fun c => if inB c ∧ marked c = -1 then none else g c
  let field' : Pos → ℤ := fun c => if inB c ∧ marked c = -1 then 0 else marked c
  let points' := points + (cellsL.filter fun c => decide (marked c = -1)).length
  { g := g', field := field', points := points',
    popped := decide toDelete.Nonempty,
    terminal := decide (emptyCount field' = 0) }

/-- Mutable engine state threaded through `randomCells`: the parallel
`field` array and cell colours, the `nextColors` queue, the list of balls
placed by the current call (a ghost log of the `obstacles` pushes plus the
colour each placed ball received), the score, and the positions of the two
randomness streams (`k` indexes the position draws, `ck` the colour draws). -/
structure SpState where
  field : Pos → ℤ
  g : Pos → Option Color
  queue : List Color
  placed : List (Pos × Color)
  points : ℕ
  k : ℕ
  ck : ℕ

/-- Conversion of one random draw `[floor(random*size), floor(random*size)]`
to a coordinate. -/
def toPos (p : Fin size × Fin size) : Pos := (((p.1 : ℕ) : ℤ), ((p.2 : ℕ) : ℤ))

/-- The colour taken by `new Ball(Game.nextColors.pop())`: JS `pop` removes
the last queue element; on an empty queue it yields `undefined` and the
`Ball` constructor falls back to a random colour. -/
def popColor (crand : ℕ → Color) (st : SpState) : Color × SpState :=
  match st.queue.getLast? with
  | some col => (col, { st with queue := st.queue.dropLast })
  | none => (crand st.ck, { st with ck := st.ck + 1 })

/-- The placement loop of `randomCells` (`for (let i = ballCount; i > 0; i--)`),
with an explicit fuel so out-of-fuel is distinguishable (`none`).  A draw on
an empty cell places a ball and resets `tryCounter`; a collision with
`tryCounter` beyond `size*size` rescans for empty cells, ending the game
(`true` flag) when none remain and otherwise giving up this placement
(the source's `i--` without a compensating `i++`); any other collision
retries the same placement with `tryCounter` incremented. -/
def randLoop (rand : ℕ → Fin size × Fin size) (crand : ℕ → Color) :
    ℕ → ℕ → ℕ → SpState → Option (SpState × Bool)
  | 0, _, _, _ => none
  | _ + 1, 0, _, st => some (st, false)
  | fuel + 1, i + 1, tryCounter, st =>
      let rp := toPos (rand st.k)
      let st₁ := { st with k := st.k + 1 }
      if st₁.field rp = 0 then
        let pc := popColor crand st₁
        randLoop rand crand fuel i 0
          { pc.2 with
            field := fun c => if c = rp then 1 else pc.2.field c,
            g := fun c => if c = rp then some pc.1 else pc.2.g c,
            placed := pc.2.placed ++ [(rp, pc.1)] }
      else if size * size < tryCounter then
        if emptyCount st₁.field = 0 then some (st₁, true)
        else randLoop rand crand fuel i tryCounter st₁
      else randLoop rand crand fuel (i + 1) (tryCounter + 1) st₁

/-- Result of a whole `randomCells` call. -/
structure RCOut where
  st : SpState
  terminal : Bool
  popped : Bool

/-- The `randomCells` routine: run the placement loop; if it ended the game
return immediately (the source `return`s before the queue refill), else
refill `nextColors` with `ballCount` freshly drawn colours and finish with
`popFives`. -/
def randomCells (rand : ℕ → Fin size × Fin size) (crand : ℕ → Color) (fuel : ℕ)
    (st : SpState) : Option RCOut :=
  match randLoop rand crand fuel ballCount 0 st with
  | none => none
  | some (st₁, true) => some ⟨st₁, true, false⟩
  | some (st₁, false) =>
      let st₂ := { st₁ with
        queue := (List.range ballCount).map fun i => crand (st₁.ck + i),
        ck := st₁.ck + ballCount }
      let pr := popFives st₂.g st₂.field st₂.points
      some ⟨{ st₂ with g := pr.g, field := pr.field, points := pr.points },
        pr.terminal, pr.popped⟩

/-- The four neighbour directions used by `getPath`, in source order. -/
def bfsDirs : List Pos := [(0, 1), (0, -1), (1, 0), (-1, 0)]

/-- A queue entry of `getPath`: the cell and the path accumulated so far
(the cell itself not yet appended). -/
abbrev Entry := Pos × List Pos

/-- Orthogonal adjacency: `b` is one `getPath` step away from `a`. -/
def adjacent (a b : Pos) : Prop := b - a ∈ bfsDirs

instance : DecidableRel adjacent := fun a b => by unfold adjacent; infer_instance

/-- The neighbour expansion of one `getPath` iteration: for each direction in
order, enqueue the neighbour when it is in bounds, not yet visited, and empty
in `field`. -/
def expand (field : Pos → ℤ) (vis : Finset Pos) (c : Pos) (p : List Pos) : List Entry :=
  bfsDirs.filterMap fun d =>
    if inB (c + d) ∧ (c + d) ∉ vis ∧ field (c + d) = 0 then some (c + d, p ++ [c])
    else none

/-- The `while (queue.length > 0)` loop of `getPath`, fuelled.  `none` is
out of fuel, `some none` the not-found result, `some (some p)` a found path.
Each iteration dequeues, returns when the end is reached, otherwise marks the
cell visited and enqueues its unvisited empty in-bounds neighbours. -/
def bfsRun (field : Pos → ℤ) (e : Pos) :
    ℕ → Finset Pos → List Entry → Option (Option (List Pos))
  | 0, _, _ => none
  | _ + 1, _, [] => some none
  | fuel + 1, vis, (c, p) :: rest =>
      if c = e then some (some (p ++ [c]))
      else bfsRun field e fuel (insert c vis) (rest ++ expand field (insert c vis) c p)

/-- The `getPath` entry point: breadth-first search from `start`, which is
enqueued with an empty path and an empty visited set. -/
def getPath (field : Pos → ℤ) (s e : Pos) (fuel : ℕ) : Option (Option (List Pos)) :=
  bfsRun field e fuel ∅ [(s, [])]

/-- The branch of `handleClicks` taken when a ball is selected and an empty
cell is clicked: run `getPath`; if found, move the ball (destination field
set to 1, source cleared), run `popFives`, and when nothing popped run
`randomCells`; if not found, just deselect.  The returned selection is
always `none` (both branches null it).  `none` means a fuelled loop ran out. -/
def handleTarget (rand : ℕ → Fin size × Fin size) (crand : ℕ → Color)
    (bfsFuel rcFuel : ℕ) (sel coords : Pos) (st : SpState) :
    Option (SpState × Option Pos) :=
  match bfsRun st.field coords bfsFuel ∅ [(sel, [])] with
  | none => none
  | some none => some (st, none)
  | some (some _) =>
      let st₁ := { st with
        field := fun c => if c = sel then 0 else if c = coords then 1 else st.field c,
        g := fun c => if c = sel then none else if c = coords then st.g sel else st.g c }
      let pr := popFives st₁.g st₁.field st₁.points
      let st₂ := { st₁ with g := pr.g, field := pr.field, points := pr.points }
      if pr.popped then some (st₂, none)
      else
        match randomCells rand crand rcFuel st₂ with
        | none => none
        | some out => some (out.st, none)

/-! ### Basic facts about the board -/

/-- Unfolding of `inB` on a literal pair. -/
theorem inB_mk {x y : ℤ} : inB (x, y) ↔ 0 ≤ x ∧ x < 9 ∧ 0 ≤ y ∧ y < 9 := Iff.rfl

theorem mem_cellsL {c : Pos} : c ∈ cellsL ↔ inB c := by
  obtain ⟨x, y⟩ := c
  rw [inB_mk]
  simp only [cellsL, size, List.mem_flatMap, List.mem_map, List.mem_range, Prod.mk.injEq]
  constructor
  · rintro ⟨i, hi, j, hj, rfl, rfl⟩
    simp only [Int.ofNat_eq_coe]
    omega
  · rintro ⟨h1, h2, h3, h4⟩
    exact ⟨x.toNat, by omega, y.toNat, by omega, by simp only [Int.ofNat_eq_coe]; omega,
      by simp only [Int.ofNat_eq_coe]; omega⟩

theorem nodup_cellsL : cellsL.Nodup := by decide

/-! ### Run detection (`popFives` / `checkDirection`) -/

/-- A window of five consecutive in-bounds same-coloured occupied cells
starting at `s` in direction `d`. -/
def Window (g : Pos → Option Color) (s d : Pos) : Prop :=
  ∃ col, ∀ i, i < 5 → inB (stepN s d i) ∧ g (stepN s d i) = some col

theorem stepN_zero (s d : Pos) : stepN s d 0 = s := by
  simp [stepN]

/-- Helper: a `takeWhile` at least as long as the list is the whole list and
every element satisfies the predicate. -/
theorem takeWhile_full {α} (p : α → Bool) :
    ∀ l : List α, l.length ≤ (l.takeWhile p).length →
      l.takeWhile p = l ∧ ∀ a ∈ l, p a = true := by
  intro l
  induction l with
  | nil => simp
  | cons a t ih =>
      cases hpa : p a with
      | false => simp [List.takeWhile_cons, hpa]
      | true =>
          simp only [List.takeWhile_cons, hpa, if_true, List.length_cons]
          intro hlen
          have h := ih (by omega)
          refine ⟨by rw [h.1], fun x hx => ?_⟩
          rcases List.mem_cons.mp hx with rfl | hx
          · exact hpa
          · exact h.2 x hx

/-- Helper: `takeWhile` keeps a list all of whose elements satisfy the
predicate. -/
theorem takeWhile_of_all {α} (p : α → Bool) :
    ∀ l : List α, (∀ a ∈ l, p a = true) → l.takeWhile p = l := by
  intro l
  induction l with
  | nil => simp
  | cons a t ih =>
      intro h
      have hpa := h a (by simp)
      simp only [List.takeWhile_cons, hpa]
      simp [ih fun a ha => h a (by simp [ha])]

theorem mem_checkDirection {g : Pos → Option Color} {s d c : Pos} :
    c ∈ checkDirection g s d ↔ Window g s d ∧ ∃ i, i < 5 ∧ c = stepN s d i := by
  cases hgs : g s with
  | none =>
      simp only [checkDirection, hgs, List.not_mem_nil, false_iff]
      rintro ⟨⟨col, hw⟩, -⟩
      have h0 := (hw 0 (by norm_num)).2
      rw [stepN_zero, hgs] at h0
      exact Option.noConfusion h0
  | some col =>
      simp only [checkDirection, hgs]
      constructor
      · intro hc
        by_cases h5 : 5 ≤ (((List.range 5).map (stepN s d)).takeWhile
            fun q => decide (inB q) && decide (g q = some col)).length
        · rw [if_pos h5] at hc
          have hfull := takeWhile_full (fun q => decide (inB q) && decide (g q = some col))
            ((List.range 5).map (stepN s d)) (by simpa using h5)
          rw [hfull.1] at hc
          obtain ⟨i, hi, rfl⟩ := by simpa using hc
          refine ⟨⟨col, fun j hj => ?_⟩, i, hi, rfl⟩
          have hj' := hfull.2 (stepN s d j)
            (List.mem_map_of_mem _ (List.mem_range.mpr hj))
          simpa using hj'
        · rw [if_neg h5] at hc
          exact absurd hc (List.not_mem_nil c)
      · rintro ⟨⟨col', hw⟩, i, hi, rfl⟩
        have h0 := (hw 0 (by norm_num)).2
        rw [stepN_zero, hgs] at h0
        injection h0 with hcol
        have hall : ∀ q ∈ (List.range 5).map (stepN s d),
            (fun q => decide (inB q) && decide (g q = some col)) q = true := by
          rintro q hq
          obtain ⟨j, hj, rfl⟩ := by simpa using hq
          have h2 := hw j hj
          simp [h2.1, h2.2, hcol]
        rw [takeWhile_of_all _ _ hall]
        rw [if_pos (by simp)]
        exact List.mem_map_of_mem _ (List.mem_range.mpr hi)

theorem mem_detect {g : Pos → Option Color} {c : Pos} :
    c ∈ detect g ↔ ∃ s d, d ∈ popDirs ∧ Window g s d ∧ ∃ i, i < 5 ∧ c = stepN s d i := by
  unfold detect
  simp only [List.mem_toFinset, List.mem_flatMap]
  constructor
  · rintro ⟨s, _, d, hd, hc⟩
    rw [mem_checkDirection] at hc
    exact ⟨s, d, hd, hc.1, hc.2⟩
  · rintro ⟨s, d, hd, hw, i, hi, rfl⟩
    refine ⟨s, ?_, d, hd, mem_checkDirection.mpr ⟨hw, i, hi, rfl⟩⟩
    rw [mem_cellsL]
    obtain ⟨col, hcol⟩ := hw
    have h0 := (hcol 0 (by norm_num)).1
    rwa [stepN_zero] at h0

theorem detect_inB {g : Pos → Option Color} {c : Pos} (hc : c ∈ detect g) : inB c := by
  obtain ⟨s, d, _, ⟨col, hw⟩, i, hi, rfl⟩ := mem_detect.mp hc
  exact (hw i hi).1

/-- Example grid from the spec: five red markers at (0,0)..(0,4), else empty. -/
def gEx : Pos → Option Color := fun c =>
  if c.1 = 0 ∧ 0 ≤ c.2 ∧ c.2 < 5 then some Color.red else none

/-- C4: `detect_runs` (the `toDelete` set of `popFives`) marks a cell iff it
lies in some window of 5 consecutive in-bounds same-coloured occupied cells
along one of the four scan axes; on the 9×9 grid whose only markers are five
same-coloured cells at (0,0)..(0,4) the clear-set is exactly those five
coordinates; and the clear-set is empty when no axis has a window of 5
contiguous same-coloured cells. -/
theorem detect_runs_spec :
    (∀ (g : Pos → Option Color) (c : Pos),
      c ∈ detect g ↔ ∃ s d, d ∈ popDirs ∧ Window g s d ∧ ∃ i, i < 5 ∧ c = stepN s d i) ∧
    detect gEx = {(0, 0), (0, 1), (0, 2), (0, 3), (0, 4)} ∧
    (∀ g : Pos → Option Color, (∀ s d, d ∈ popDirs → ¬Window g s d) → detect g = ∅) := by
  refine ⟨fun g c => mem_detect, by decide, fun g h => ?_⟩
  rw [Finset.eq_empty_iff_forall_not_mem]
  intro c hc
  obtain ⟨s, d, hd, hw, -⟩ := mem_detect.mp hc
  exact h s d hd hw

/-- Witness for C4: the empty grid has no window, so its clear-set is empty. -/
theorem detect_runs_spec_witness : detect (fun _ => none) = ∅ := by
  refine detect_runs_spec.2.2 (fun _ => none) ?_
  rintro s d - ⟨col, hw⟩
  exact Option.noConfusion (hw 0 (by norm_num)).2

/-! ### Scoring (`popFives` and the score counter) -/

theorem detect_card_eq {g : Pos → Option Color} {field : Pos → ℤ}
    (hf : ∀ c, inB c → field c ≠ -1) :
    (cellsL.filter fun c =>
        decide ((if c ∈ detect g then (-1 : ℤ) else field c) = -1)).length
      = (detect g).card := by
  have hcongr : cellsL.filter (fun c =>
        decide ((if c ∈ detect g then (-1 : ℤ) else field c) = -1))
      = cellsL.filter (fun c => decide (c ∈ detect g)) := by
    apply List.filter_congr
    intro c hc
    by_cases hmem : c ∈ detect g
    · simp [hmem]
    · simp [hmem, hf c (mem_cellsL.mp hc)]
  rw [hcongr]
  have hnodup : (cellsL.filter fun c => decide (c ∈ detect g)).Nodup :=
    nodup_cellsL.filter _
  rw [← List.toFinset_card_of_nodup hnodup]
  congr 1
  ext c
  simp only [List.mem_toFinset, List.mem_filter, decide_eq_true_eq]
  exact ⟨fun h => h.2, fun h => ⟨mem_cellsL.mpr (detect_inB h), h⟩⟩

theorem popFives_points_exact (g : Pos → Option Color) (field : Pos → ℤ) (pts : ℕ)
    (hf : ∀ c, inB c → field c ≠ -1) :
    (popFives g field pts).points = pts + (detect g).card := by
  show pts + _ = pts + (detect g).card
  rw [detect_card_eq hf]

theorem popFives_points_mono (g : Pos → Option Color) (field : Pos → ℤ) (pts : ℕ) :
    pts ≤ (popFives g field pts).points :=
  Nat.le_add_right _ _

/-! ### The spawner (`randomCells`) -/

theorem popColor_field (crand : ℕ → Color) (st : SpState) :
    (popColor crand st).2.field = st.field := by
  unfold popColor
  cases st.queue.getLast? <;> rfl

theorem popColor_g (crand : ℕ → Color) (st : SpState) :
    (popColor crand st).2.g = st.g := by
  unfold popColor
  cases st.queue.getLast? <;> rfl

theorem popColor_placed (crand : ℕ → Color) (st : SpState) :
    (popColor crand st).2.placed = st.placed := by
  unfold popColor
  cases st.queue.getLast? <;> rfl

theorem popColor_points (crand : ℕ → Color) (st : SpState) :
    (popColor crand st).2.points = st.points := by
  unfold popColor
  cases st.queue.getLast? <;> rfl

/-- Master invariant of the placement loop: the balls placed by a call extend
the log by a list `new` of at most `i` pairwise-distinct cells that were all
empty at entry; the final field marks exactly those cells occupied; the score
is untouched; and the loop reports game over only with zero empty cells. -/
theorem randLoop_inv (rand : ℕ → Fin size × Fin size) (crand : ℕ → Color) :
    ∀ (fuel i tc : ℕ) (st res : SpState) (done : Bool),
      randLoop rand crand fuel i tc st = some (res, done) →
      ∃ new : List (Pos × Color),
        res.placed = st.placed ++ new ∧
        new.length ≤ i ∧
        (new.map Prod.fst).Nodup ∧
        (∀ pc ∈ new, st.field pc.1 = 0) ∧
        (∀ c, res.field c = if c ∈ new.map Prod.fst then 1 else st.field c) ∧
        res.points = st.points ∧
        (done = true → emptyCount res.field = 0) := by
  intro fuel
  induction fuel with
  | zero =>
      intro i tc st res done h
      exact absurd h (by simp [randLoop])
  | succ fuel ih =>
      intro i tc st res done h
      cases i with
      | zero =>
          simp only [randLoop, Option.some.injEq, Prod.mk.injEq] at h
          obtain ⟨rfl, rfl⟩ := h
          exact ⟨[], by simp, by simp, by simp, by simp, by simp, rfl, by simp⟩
      | succ i =>
          simp only [randLoop] at h
          split_ifs at h with h1 h2 h3
          · -- successful placement at rp
            set rp := toPos (rand st.k) with hrp
            set col := (popColor crand { st with k := st.k + 1 }).1 with hcol
            obtain ⟨new', hplaced, hlen, hnodup, hempty, hfield, hpoints, hdone⟩ :=
              ih i 0 _ res done h
            simp only [popColor_field, popColor_placed, popColor_points]
              at hplaced hempty hfield hpoints
            refine ⟨(rp, col) :: new', ?_, by simpa using hlen, ?_, ?_, ?_, hpoints, hdone⟩
            · rw [hplaced, List.append_assoc, List.singleton_append]
            · rw [List.map_cons, List.nodup_cons]
              refine ⟨fun hmem => ?_, hnodup⟩
              obtain ⟨pc, hpc, hpc1⟩ := List.mem_map.mp hmem
              have h0 := hempty pc hpc
              rw [hpc1] at h0
              simp at h0
            · rintro pc hpc
              rcases List.mem_cons.mp hpc with rfl | hpc
              · exact h1
              · have h0 := hempty pc hpc
                by_cases hcc : pc.1 = rp
                · rw [if_pos hcc] at h0
                  exact absurd h0 (by norm_num)
                · rw [if_neg hcc] at h0
                  exact h0
            · intro c
              have h0 := hfield c
              by_cases hc1 : c ∈ new'.map Prod.fst
              · have hm : c ∈ ((rp, col) :: new').map Prod.fst := by
                  simp [List.mem_cons, hc1]
                rw [h0, if_pos hc1, if_pos hm]
              · by_cases hc2 : c = rp
                · have hm : c ∈ ((rp, col) :: new').map Prod.fst := by
                    simp [List.mem_cons, hc2]
                  rw [h0, if_neg hc1, if_pos hc2, if_pos hm]
                · have hm : c ∉ ((rp, col) :: new').map Prod.fst := by
                    simp [List.mem_cons, hc2, hc1]
                  rw [h0, if_neg hc1, if_neg hc2, if_neg hm]
          · -- threshold reached, zero empty cells: game ends
            simp only [Option.some.injEq, Prod.mk.injEq] at h
            obtain ⟨rfl, rfl⟩ := h
            exact ⟨[], by simp, by simp, by simp, by simp, by simp, rfl,
              fun _ => h3⟩
          · -- threshold reached, empty cells remain: give up this placement
            obtain ⟨new, hplaced, hlen, hnodup, hempty, hfield, hpoints, hdone⟩ :=
              ih i tc _ res done h
            exact ⟨new, hplaced, by omega, hnodup, hempty, hfield, hpoints, hdone⟩
          · -- plain collision: retry with the counter bumped
            obtain ⟨new, hplaced, hlen, hnodup, hempty, hfield, hpoints, hdone⟩ :=
              ih (i + 1) (tc + 1) _ res done h
            exact ⟨new, hplaced, hlen, hnodup, hempty, hfield, hpoints, hdone⟩

/-- Colour-consumption invariant of the placement loop: the colours of the
balls placed in one call are taken from the back of the `nextColors` queue
(JS `pop`), i.e. in reverse queue order, and the queue shrinks accordingly. -/
theorem randLoop_queue (rand : ℕ → Fin size × Fin size) (crand : ℕ → Color) :
    ∀ (fuel i tc : ℕ) (st res : SpState) (done : Bool),
      randLoop rand crand fuel i tc st = some (res, done) →
      ∃ new : List (Pos × Color),
        res.placed = st.placed ++ new ∧
        (new.length ≤ st.queue.length →
          new.map Prod.snd = st.queue.reverse.take new.length ∧
          res.queue = st.queue.take (st.queue.length - new.length)) := by
  intro fuel
  induction fuel with
  | zero =>
      intro i tc st res done h
      exact absurd h (by simp [randLoop])
  | succ fuel ih =>
      intro i tc st res done h
      cases i with
      | zero =>
          simp only [randLoop, Option.some.injEq, Prod.mk.injEq] at h
          obtain ⟨rfl, rfl⟩ := h
          exact ⟨[], by simp, fun _ => by simp⟩
      | succ i =>
          simp only [randLoop] at h
          split_ifs at h with h1 h2 h3
          · -- successful placement
            set rp := toPos (rand st.k) with hrp
            rcases hq : st.queue.getLast? with - | col0
            · -- empty queue: colour drawn at random, queue untouched
              have hnil : st.queue = [] := by
                rwa [List.getLast?_eq_none_iff] at hq
              rw [show popColor crand { st with k := st.k + 1 }
                    = (crand st.ck, { st with k := st.k + 1, ck := st.ck + 1 }) from by
                  simp [popColor, hq]] at h
              dsimp only at h
              obtain ⟨new', hplaced, -⟩ := ih i 0 _ res done h
              refine ⟨(rp, crand st.ck) :: new', ?_, fun hle => ?_⟩
              · rw [hplaced]
                simp
              · rw [hnil] at hle
                simp only [List.length_cons, List.length_nil] at hle
                omega
            · -- nonempty queue: pop the last colour
              have hsplit : st.queue.dropLast ++ [col0] = st.queue :=
                List.dropLast_append_getLast? col0 (by rw [hq]; rfl)
              have hpos : 1 ≤ st.queue.length :=
                List.length_pos.mpr (by intro hn; rw [hn] at hq; simp at hq)
              rw [show popColor crand { st with k := st.k + 1 }
                    = (col0, { st with k := st.k + 1, queue := st.queue.dropLast }) from by
                  simp [popColor, hq]] at h
              dsimp only at h
              obtain ⟨new', hplaced, hcond⟩ := ih i 0 _ res done h
              dsimp only at hplaced hcond
              refine ⟨(rp, col0) :: new', ?_, fun hle => ?_⟩
              · rw [hplaced]
                simp
              · simp only [List.length_cons] at hle
                have hdl : st.queue.dropLast.length = st.queue.length - 1 := by
                  simp [List.length_dropLast]
                obtain ⟨hsnd, hqres⟩ := hcond (by rw [hdl]; omega)
                have hrev : st.queue.reverse = col0 :: st.queue.dropLast.reverse := by
                  conv_lhs => rw [← hsplit]
                  simp
                constructor
                · rw [List.map_cons, hsnd, hrev]
                  simp [List.take_succ_cons]
                · rw [hqres, hdl, List.dropLast_eq_take, List.take_take]
                  congr 1
                  simp only [List.length_cons]
                  omega
          · -- threshold reached, game over
            simp only [Option.some.injEq, Prod.mk.injEq] at h
            obtain ⟨rfl, rfl⟩ := h
            exact ⟨[], by simp, fun _ => by simp⟩
          · -- threshold reached, placement given up
            obtain ⟨new, hplaced, hcond⟩ := ih i tc _ res done h
            exact ⟨new, hplaced, hcond⟩
          · -- plain collision retry
            obtain ⟨new, hplaced, hcond⟩ := ih (i + 1) (tc + 1) _ res done h
            exact ⟨new, hplaced, hcond⟩

/-! ### Pathfinding (`getPath`): soundness and minimality -/

/-- A well-formed partial path as built by the BFS: it starts at `s`, its
consecutive cells are orthogonally adjacent, and every cell after the first
is in bounds and empty in `field`. -/
def PathOK (field : Pos → ℤ) (s : Pos) (l : List Pos) : Prop :=
  l.head? = some s ∧ l.Chain' adjacent ∧ ∀ c ∈ l.tail, inB c ∧ field c = 0

/-- A complete path from `s` to `e`: well formed and ending at `e`.  This is
the class of routes `getPath` may legally use (only the start may be an
occupied cell). -/
def ValidPath (field : Pos → ℤ) (s e : Pos) (l : List Pos) : Prop :=
  PathOK field s l ∧ l.getLast? = some e

/-- Well-formedness of a BFS queue entry: the path it would produce on
success is well formed. -/
def EntryOK (field : Pos → ℤ) (s : Pos) (ent : Entry) : Prop :=
  PathOK field s (ent.2 ++ [ent.1])

theorem mem_expand {field : Pos → ℤ} {vis : Finset Pos} {c : Pos} {p : List Pos}
    {ent : Entry} :
    ent ∈ expand field vis c p ↔
      ∃ d ∈ bfsDirs, ent = (c + d, p ++ [c]) ∧ inB (c + d) ∧ (c + d) ∉ vis ∧
        field (c + d) = 0 := by
  simp only [expand, List.mem_filterMap]
  constructor
  · rintro ⟨d, hd, hopt⟩
    split_ifs at hopt with hcond
    injection hopt with heq
    exact ⟨d, hd, heq.symm, hcond.1, hcond.2.1, hcond.2.2⟩
  · rintro ⟨d, hd, rfl, hinB, hvis, hfield⟩
    exact ⟨d, hd, by rw [if_pos ⟨hinB, hvis, hfield⟩]⟩

theorem expand_length {field : Pos → ℤ} {vis : Finset Pos} {c : Pos} {p : List Pos}
    {ent : Entry} (h : ent ∈ expand field vis c p) : ent.2.length = p.length + 1 := by
  obtain ⟨d, -, rfl, -⟩ := mem_expand.mp h
  simp

theorem adjacent_add {c d : Pos} (hd : d ∈ bfsDirs) : adjacent c (c + d) := by
  unfold adjacent
  rwa [add_sub_cancel_left]

/-- Extending a well-formed partial path by an adjacent empty in-bounds cell. -/
theorem pathOK_extend {field : Pos → ℤ} {s : Pos} {l : List Pos} {n : Pos}
    (h : PathOK field s l) (hl : l ≠ []) (hadj : ∀ z, l.getLast? = some z → adjacent z n)
    (hn : inB n ∧ field n = 0) : PathOK field s (l ++ [n]) := by
  obtain ⟨hhead, hchain, htail⟩ := h
  refine ⟨?_, ?_, ?_⟩
  · rw [List.head?_append, hhead]
    rfl
  · rw [List.chain'_append]
    refine ⟨hchain, List.chain'_singleton n, fun x hx y hy => ?_⟩
    obtain rfl : n = y := by simpa using hy
    exact hadj x (by simpa using hx)
  · rw [List.tail_append_of_ne_nil hl]
    intro z hz
    rcases List.mem_append.mp hz with hz | hz
    · exact htail z hz
    · obtain rfl : z = n := by simpa using hz
      exact hn

/-- Cutting the last cell off a well-formed partial path. -/
theorem pathOK_of_concat {field : Pos → ℤ} {s : Pos} {l : List Pos} {n : Pos}
    (h : PathOK field s (l ++ [n])) (hl : l ≠ []) : PathOK field s l := by
  obtain ⟨hhead, hchain, htail⟩ := h
  refine ⟨?_, (List.chain'_append.mp hchain).1, ?_⟩
  · rw [List.head?_append] at hhead
    rcases hh : l.head? with - | a
    · cases hl (List.head?_eq_none_iff.mp hh)
    · rw [hh] at hhead
      exact hhead
  · intro z hz
    refine htail z ?_
    rw [List.tail_append_of_ne_nil hl]
    exact List.mem_append_left _ hz

/-- The inductive invariant of the BFS loop, tying the visited set and the
queue of the state `(vis, q)` to the search parameters.  `D` is a ghost
labelling of visited cells by the path length at their first dequeue. -/
structure BfsInv (field : Pos → ℤ) (s e : Pos) (vis : Finset Pos) (q : List Entry) :
    Prop where
  entries_ok : ∀ ent ∈ q, EntryOK field s ent
  sorted : q.Pairwise fun a b => a.2.length ≤ b.2.length
  window : ∀ a ∈ q, ∀ b ∈ q, a.2.length ≤ b.2.length + 1
  covering : ∃ D : Pos → ℕ,
    ((s ∈ vis ∧ D s = 0) ∨ (vis = ∅ ∧ q = [(s, [])])) ∧
    (∀ z ∈ vis, ∀ ent ∈ q, D z ≤ ent.2.length) ∧
    (∀ z ∈ vis, ∀ d ∈ bfsDirs, inB (z + d) → field (z + d) = 0 →
      ((z + d) ∈ vis ∧ D (z + d) ≤ D z + 1) ∨
      ∃ ent ∈ q, ent.1 = z + d ∧ ent.2.length ≤ D z + 1)
  end_not_vis : e ∉ vis

theorem bfsInv_init (field : Pos → ℤ) (s e : Pos) : BfsInv field s e ∅ [(s, [])] := by
  refine ⟨?_, by simp, ?_, ⟨fun _ => 0, Or.inr ⟨rfl, rfl⟩, by simp, by simp⟩, by simp⟩
  · intro ent hent
    obtain rfl : ent = (s, []) := by simpa using hent
    exact ⟨rfl, List.chain'_singleton s, by simp⟩
  · intro a ha b hb
    obtain rfl : a = (s, []) := by simpa using ha
    obtain rfl : b = (s, []) := by simpa using hb
    simp

/-- One BFS iteration preserves the invariant: the dequeued cell `c ≠ e` is
inserted into the visited set and its fresh neighbours are enqueued. -/
theorem bfsInv_step {field : Pos → ℤ} {s e : Pos} {vis : Finset Pos} {c : Pos}
    {p : List Pos} {rest : List Entry}
    (hInv : BfsInv field s e vis ((c, p) :: rest)) (hne : c ≠ e) :
    BfsInv field s e (insert c vis) (rest ++ expand field (insert c vis) c p) := by
  obtain ⟨hok, hsorted, hwin, ⟨D, hstart, hvisq, hnbr⟩, hend⟩ := hInv
  have hheadq : ((c, p) : Entry) ∈ (c, p) :: rest := List.mem_cons_self _ _
  have hsorted' := List.pairwise_cons.mp hsorted
  have hwinHead : ∀ a ∈ (c, p) :: rest, a.2.length ≤ p.length + 1 := fun a ha => by
    have h := hwin a ha (c, p) hheadq
    simpa using h
  have hsortHead : ∀ b ∈ rest, p.length ≤ b.2.length := fun b hb => by
    have h := hsorted'.1 b hb
    simpa using h
  have hvisqHead : ∀ z ∈ vis, D z ≤ p.length := fun z hz => by
    have h := hvisq z hz (c, p) hheadq
    simpa using h
  refine ⟨?_, ?_, ?_, ?_, ?_⟩
  · -- entries_ok
    intro ent hent
    rcases List.mem_append.mp hent with hent | hent
    · exact hok ent (List.mem_cons_of_mem _ hent)
    · obtain ⟨d, hd, rfl, hinB, -, hf0⟩ := mem_expand.mp hent
      refine pathOK_extend (hok (c, p) hheadq) (by simp) ?_ ⟨hinB, hf0⟩
      intro z hz
      rw [List.getLast?_concat] at hz
      obtain rfl : c = z := by simpa using hz
      exact adjacent_add hd
  · -- sorted
    rw [List.pairwise_append]
    refine ⟨hsorted'.2, ?_, ?_⟩
    · refine List.pairwise_of_forall_mem_list fun a ha b hb => ?_
      rw [expand_length ha, expand_length hb]
    · intro a ha b hb
      rw [expand_length hb]
      exact hwinHead a (List.mem_cons_of_mem _ ha)
  · -- window
    intro a ha b hb
    rcases List.mem_append.mp ha with ha | ha <;>
      rcases List.mem_append.mp hb with hb | hb
    · exact hwin a (List.mem_cons_of_mem _ ha) b (List.mem_cons_of_mem _ hb)
    · rw [expand_length hb]
      have := hwinHead a (List.mem_cons_of_mem _ ha)
      omega
    · rw [expand_length ha]
      have := hsortHead b hb
      omega
    · rw [expand_length ha, expand_length hb]
      omega
  · -- covering
    by_cases hc : c ∈ vis
    · rw [Finset.insert_eq_self.mpr hc]
      refine ⟨D, ?_, ?_, ?_⟩
      · rcases hstart with ⟨hs, hD⟩ | ⟨hv, -⟩
        · exact Or.inl ⟨hs, hD⟩
        · rw [hv] at hc
          exact absurd hc (Finset.not_mem_empty c)
      · intro z hz ent hent
        rcases List.mem_append.mp hent with hent | hent
        · exact hvisq z hz ent (List.mem_cons_of_mem _ hent)
        · rw [expand_length hent]
          have := hvisqHead z hz
          omega
      · intro z hz d hd hinB hf0
        rcases hnbr z hz d hd hinB hf0 with ⟨hin, hle⟩ | ⟨ent, hent, he1, hlen⟩
        · exact Or.inl ⟨hin, hle⟩
        · rcases List.mem_cons.mp hent with rfl | hent
          · dsimp only at he1 hlen
            refine Or.inl ⟨?_, ?_⟩
            · rw [← he1]
              exact hc
            · have := hvisqHead (z + d) (he1 ▸ hc)
              omega
          · exact Or.inr ⟨ent, List.mem_append_left _ hent, he1, hlen⟩
    · refine ⟨Function.update D c p.length, ?_, ?_, ?_⟩
      · rcases hstart with ⟨hs, hD⟩ | ⟨hv, hq⟩
        · have hsc : s ≠ c := fun h => hc (h ▸ hs)
          exact Or.inl ⟨Finset.mem_insert_of_mem hs,
            by rw [Function.update_noteq hsc]; exact hD⟩
        · obtain ⟨h1, h2⟩ := List.cons.inj hq
          obtain ⟨rfl, rfl⟩ := Prod.mk.inj h1
          exact Or.inl ⟨Finset.mem_insert_self _ _, by simp [Function.update_same]⟩
      · intro z hz ent hent
        rcases Finset.mem_insert.mp hz with rfl | hz
        · rw [Function.update_same]
          rcases List.mem_append.mp hent with hent | hent
          · exact hsortHead ent hent
          · rw [expand_length hent]
            omega
        · have hzc : z ≠ c := fun h => hc (h ▸ hz)
          rw [Function.update_noteq hzc]
          rcases List.mem_append.mp hent with hent | hent
          · exact hvisq z hz ent (List.mem_cons_of_mem _ hent)
          · rw [expand_length hent]
            have := hvisqHead z hz
            omega
      · intro z hz d hd hinB hf0
        rcases Finset.mem_insert.mp hz with rfl | hz
        · -- z is the freshly visited cell c
          rw [Function.update_same]
          by_cases hn : (z + d) ∈ insert z vis
          · refine Or.inl ⟨hn, ?_⟩
            rcases Finset.mem_insert.mp hn with he | hn
            · rw [he, Function.update_same]
              omega
            · have hnz : z + d ≠ z := fun h => hc (h ▸ hn)
              rw [Function.update_noteq hnz]
              have := hvisqHead (z + d) hn
              omega
          · refine Or.inr ⟨(z + d, p ++ [z]), ?_, rfl, ?_⟩
            · refine List.mem_append_right _ ?_
              exact mem_expand.mpr ⟨d, hd, rfl, hinB, hn, hf0⟩
            · simp only [List.length_append, List.length_cons, List.length_nil]
              omega
        · -- z was already visited
          have hzc : z ≠ c := fun h => hc (h ▸ hz)
          rw [Function.update_noteq hzc]
          rcases hnbr z hz d hd hinB hf0 with ⟨hin, hle⟩ | ⟨ent, hent, he1, hlen⟩
          · have hnc : z + d ≠ c := fun h => hc (h ▸ hin)
            exact Or.inl ⟨Finset.mem_insert_of_mem hin,
              by rw [Function.update_noteq hnc]; exact hle⟩
          · rcases List.mem_cons.mp hent with rfl | hent
            · dsimp only at he1 hlen
              refine Or.inl ⟨?_, ?_⟩
              · rw [← he1]
                exact Finset.mem_insert_self _ _
              · rw [← he1, Function.update_same]
                exact hlen
            · exact Or.inr ⟨ent, List.mem_append_left _ hent, he1, hlen⟩
  · -- end_not_vis
    rw [Finset.mem_insert]
    rintro (rfl | h)
    · exact hne rfl
    · exact hend h

/-- Any valid path from `s` is covered by the BFS state: its endpoint is
already visited, or some queue entry sits on it early enough. -/
theorem cover_along {field : Pos → ℤ} {s e : Pos} {vis : Finset Pos} {q : List Entry}
    (hInv : BfsInv field s e vis q) :
    ∀ l z, PathOK field s l → l.getLast? = some z →
      z ∈ vis ∨ ∃ ent ∈ q, ent.2.length + 1 ≤ l.length := by
  obtain ⟨D, hstart, hvisq, hnbr⟩ := hInv.covering
  suffices h : ∀ l z, PathOK field s l → l.getLast? = some z →
      (z ∈ vis ∧ D z + 1 ≤ l.length) ∨ ∃ ent ∈ q, ent.2.length + 1 ≤ l.length by
    intro l z h1 h2
    rcases h l z h1 h2 with ⟨hv, -⟩ | he
    exacts [Or.inl hv, Or.inr he]
  intro l
  induction l using List.reverseRecOn with
  | nil =>
      intro z h1 h2
      simp at h2
  | append_singleton l a ih =>
      intro z hOK hlast
      rw [List.getLast?_concat] at hlast
      obtain rfl : a = z := by simpa using hlast
      rcases eq_or_ne l [] with rfl | hlne
      · -- the one-cell path; its head is s
        obtain rfl : a = s := by
          have h := hOK.1
          simpa using h
        rcases hstart with ⟨hv, hD⟩ | ⟨-, hq⟩
        · exact Or.inl ⟨hv, by simp [hD]⟩
        · exact Or.inr ⟨(a, []), by rw [hq]; exact List.mem_cons_self _ _, by simp⟩
      · rcases hgl : l.getLast? with - | z'
        · cases hlne (List.getLast?_eq_none_iff.mp hgl)
        have hOK' : PathOK field s l := pathOK_of_concat hOK hlne
        have hz_props : inB a ∧ field a = 0 := by
          refine hOK.2.2 a ?_
          rw [List.tail_append_of_ne_nil hlne]
          exact List.mem_append_right _ (by simp)
        have hadj : adjacent z' a := by
          have hchain := hOK.2.1
          rw [List.chain'_append] at hchain
          refine hchain.2.2 z' ?_ a (by simp)
          rw [hgl]
          rfl
        have hd : (a - z') ∈ bfsDirs := hadj
        have hzd : z' + (a - z') = a := by abel
        rcases ih z' hOK' hgl with ⟨hv', hD'⟩ | ⟨ent, hent, hlen⟩
        · have hstep := hnbr z' hv' (a - z') hd (by rw [hzd]; exact hz_props.1)
            (by rw [hzd]; exact hz_props.2)
          rw [hzd] at hstep
          rcases hstep with ⟨hv, hle⟩ | ⟨ent, hent, -, hlen⟩
          · refine Or.inl ⟨hv, ?_⟩
            simp only [List.length_append, List.length_cons, List.length_nil]
            omega
          · refine Or.inr ⟨ent, hent, ?_⟩
            simp only [List.length_append, List.length_cons, List.length_nil]
            omega
        · refine Or.inr ⟨ent, hent, ?_⟩
          simp only [List.length_append, List.length_cons, List.length_nil]
          omega

/-- At the moment the BFS dequeues the end cell, the returned path is valid
and minimal among all valid paths. -/
theorem bfs_found_min {field : Pos → ℤ} {s e : Pos} {vis : Finset Pos}
    {p : List Pos} {rest : List Entry}
    (hInv : BfsInv field s e vis ((e, p) :: rest)) :
    ValidPath field s e (p ++ [e]) ∧
      ∀ l, ValidPath field s e l → (p ++ [e]).length ≤ l.length := by
  constructor
  · exact ⟨hInv.entries_ok (e, p) (List.mem_cons_self _ _), List.getLast?_concat _⟩
  · rintro l ⟨hOK, hlast⟩
    rcases cover_along hInv l e hOK hlast with hv | ⟨ent, hent, hlen⟩
    · exact absurd hv hInv.end_not_vis
    · have hple : p.length ≤ ent.2.length := by
        rcases List.mem_cons.mp hent with rfl | hent
        · simp
        · have h := (List.pairwise_cons.mp hInv.sorted).1 ent hent
          simpa using h
      simp only [List.length_append, List.length_cons, List.length_nil]
      omega

/-- Whenever the fuelled BFS loop reports a found path, that path is valid
and of minimal length, provided the state satisfies the invariant. -/
theorem bfs_main {field : Pos → ℤ} {s e : Pos} :
    ∀ (fuel : ℕ) (vis : Finset Pos) (q : List Entry) (p : List Pos),
      BfsInv field s e vis q → bfsRun field e fuel vis q = some (some p) →
      ValidPath field s e p ∧ ∀ l, ValidPath field s e l → p.length ≤ l.length := by
  intro fuel
  induction fuel with
  | zero =>
      intro vis q p hInv h
      exact absurd h (by simp [bfsRun])
  | succ fuel ih =>
      rintro vis (- | ⟨⟨c, pp⟩, rest⟩) p hInv h
      · rw [show bfsRun field e (fuel + 1) vis [] = some none from rfl] at h
        exact absurd (Option.some.inj h) (by simp)
      · simp only [bfsRun] at h
        by_cases hce : c = e
        · subst hce
          rw [if_pos rfl] at h
          obtain rfl : pp ++ [c] = p := Option.some.inj (Option.some.inj h)
          exact bfs_found_min hInv
        · rw [if_neg hce] at h
          exact ih _ _ _ (bfsInv_step hInv hce) h

/-! ### Termination of the two loops -/

/-- The cells the BFS can ever visit: the board plus the start cell (the
start is dequeued unconditionally, every other enqueued cell is in bounds). -/
def targetSet (s : Pos) : Finset Pos := insert s cellsL.toFinset

theorem findIdx_append_le {α} (p : α → Bool) (l₁ l₂ : List α)
    (h₂ : l₂.findIdx p = 0) : (l₁ ++ l₂).findIdx p ≤ l₁.findIdx p := by
  induction l₁ with
  | nil => simp [h₂]
  | cons a t ih =>
      rw [List.cons_append, List.findIdx_cons, List.findIdx_cons]
      cases hpa : p a
      · simpa using Nat.succ_le_succ ih
      · simp

theorem findIdx_expand {field : Pos → ℤ} {vis : Finset Pos} {c : Pos} {p : List Pos} :
    (expand field vis c p).findIdx (fun ent => decide (ent.1 ∉ vis)) = 0 := by
  rcases hex : expand field vis c p with - | ⟨a, t⟩
  · rfl
  · have ha : a ∈ expand field vis c p := by
      rw [hex]
      exact List.mem_cons_self _ _
    obtain ⟨d, -, rfl, -, hnv, -⟩ := mem_expand.mp ha
    rw [List.findIdx_cons]
    simp [hnv]

/-- Termination measure argument for `getPath`: by lexicographic induction
on the number of unvisited reachable cells and the position of the first
queue entry whose cell is unvisited, the fuelled BFS completes. -/
theorem bfs_term_aux (field : Pos → ℤ) (s e : Pos) :
    ∀ u h (vis : Finset Pos) (q : List Entry),
      (∀ ent ∈ q, ent.1 ∈ targetSet s) →
      (targetSet s \ vis).card = u →
      q.findIdx (fun ent => decide (ent.1 ∉ vis)) = h →
      ∃ n, (bfsRun field e n vis q).isSome := by
  intro u
  induction u using Nat.strong_induction_on with
  | _ u ihu =>
    intro h
    induction h using Nat.strong_induction_on with
    | _ h ihh =>
      rintro vis (- | ⟨⟨c, pp⟩, rest⟩) hq hu hh
      · exact ⟨1, by simp [bfsRun]⟩
      · by_cases hce : c = e
        · subst hce
          exact ⟨1, by simp [bfsRun]⟩
        · have hq' : ∀ ent ∈ rest ++ expand field (insert c vis) c pp,
              ent.1 ∈ targetSet s := by
            intro ent hent
            rcases List.mem_append.mp hent with hent | hent
            · exact hq ent (List.mem_cons_of_mem _ hent)
            · obtain ⟨d, -, rfl, hinB, -, -⟩ := mem_expand.mp hent
              exact Finset.mem_insert_of_mem (List.mem_toFinset.mpr (mem_cellsL.mpr hinB))
          by_cases hc : c ∈ vis
          · -- dequeue of an already visited cell: the first unvisited queue
            -- position moves strictly forward
            have hins : insert c vis = vis := Finset.insert_eq_self.mpr hc
            rw [hins] at hq'
            have hh_eq : (((c, pp) : Entry) :: rest).findIdx
                (fun ent => decide (ent.1 ∉ vis)) =
                rest.findIdx (fun ent => decide (ent.1 ∉ vis)) + 1 := by
              rw [List.findIdx_cons]
              simp [hc]
            have hle := findIdx_append_le (fun ent => decide (ent.1 ∉ vis)) rest
              (expand field vis c pp) findIdx_expand
            have hh2 : rest.findIdx (fun ent => decide (ent.1 ∉ vis)) + 1 = h := by
              rw [← hh_eq]
              exact hh
            obtain ⟨n, hn⟩ := ihh
              ((rest ++ expand field vis c pp).findIdx fun ent => decide (ent.1 ∉ vis))
              (by omega) vis (rest ++ expand field vis c pp) hq' hu rfl
            refine ⟨n + 1, ?_⟩
            simp only [bfsRun, if_neg hce]
            rw [hins]
            exact hn
          · -- dequeue of a fresh cell: the unvisited count drops
            have hcT : c ∈ targetSet s := hq (c, pp) (List.mem_cons_self _ _)
            have hlt : (targetSet s \ insert c vis).card < (targetSet s \ vis).card := by
              apply Finset.card_lt_card
              constructor
              · exact Finset.sdiff_subset_sdiff (Finset.Subset.refl _)
                  (Finset.subset_insert _ _)
              · intro hsub
                have hmem : c ∈ targetSet s \ vis := Finset.mem_sdiff.mpr ⟨hcT, hc⟩
                have := Finset.mem_sdiff.mp (hsub hmem)
                exact this.2 (Finset.mem_insert_self _ _)
            obtain ⟨n, hn⟩ := ihu _ (hu ▸ hlt) _ (insert c vis)
              (rest ++ expand field (insert c vis) c pp) hq' rfl rfl
            refine ⟨n + 1, ?_⟩
            simp only [bfsRun, if_neg hce]
            exact hn

/-- Uniform fuel bound for the `randomCells` placement loop: it halts within
`i*(N²+2) + (N²+1−tryCounter) + 1` iterations whatever the random draws. -/
theorem randLoop_fuel (rand : ℕ → Fin size × Fin size) (crand : ℕ → Color) :
    ∀ (m i tc : ℕ) (st : SpState), tc ≤ size * size + 1 →
      i * (size * size + 2) + (size * size + 1 - tc) < m →
      (randLoop rand crand m i tc st).isSome := by
  intro m
  induction m with
  | zero =>
      intro i tc st htc hm
      exact absurd hm (by omega)
  | succ m ih =>
      intro i tc st htc hm
      cases i with
      | zero => simp [randLoop]
      | succ i =>
          simp only [randLoop]
          split_ifs with h1 h2 h3
          · exact ih i 0 _ (by omega) (by
              simp only [size] at hm ⊢
              omega)
          · simp
          · exact ih i tc _ htc (by
              simp only [size] at hm ⊢
              omega)
          · exact ih (i + 1) (tc + 1) _ (by
              simp only [size] at h2 ⊢
              omega) (by
              simp only [size] at h2 hm ⊢
              omega)

/-! ### Score monotonicity across the remaining operations -/

theorem randomCells_points_mono (rand : ℕ → Fin size × Fin size) (crand : ℕ → Color)
    (fuel : ℕ) (st : SpState) (out : RCOut)
    (h : randomCells rand crand fuel st = some out) : st.points ≤ out.st.points := by
  unfold randomCells at h
  rcases hr : randLoop rand crand fuel ballCount 0 st with - | ⟨st₁, done⟩
  · rw [hr] at h
    exact absurd h (by simp)
  · obtain ⟨-, -, -, -, -, -, hpoints, -⟩ :=
      randLoop_inv rand crand fuel ballCount 0 st st₁ done hr
    cases done
    · rw [hr] at h
      dsimp only at h
      obtain rfl := Option.some.inj h
      calc st.points = st₁.points := hpoints.symm
        _ ≤ _ := popFives_points_mono ..
    · rw [hr] at h
      dsimp only at h
      obtain rfl := Option.some.inj h
      exact Nat.le_of_eq hpoints.symm

theorem rc_match_points_mono (rand : ℕ → Fin size × Fin size) (crand : ℕ → Color)
    (rcFuel : ℕ) (X : SpState) (res : SpState × Option Pos)
    (h : (match randomCells rand crand rcFuel X with
          | none => none
          | some out => some (out.st, none)) = some res) : X.points ≤ res.1.points := by
  rcases hrc : randomCells rand crand rcFuel X with - | out
  · rw [hrc] at h
    exact absurd h (by simp)
  · rw [hrc] at h
    obtain rfl := Option.some.inj h
    exact randomCells_points_mono rand crand rcFuel X out hrc

theorem handleTarget_points_mono (rand : ℕ → Fin size × Fin size) (crand : ℕ → Color)
    (bfsFuel rcFuel : ℕ) (sel coords : Pos) (st : SpState) (res : SpState × Option Pos)
    (h : handleTarget rand crand bfsFuel rcFuel sel coords st = some res) :
    st.points ≤ res.1.points := by
  unfold handleTarget at h
  rcases hb : bfsRun st.field coords bfsFuel ∅ [(sel, [])] with - | op
  · rw [hb] at h
    exact absurd h (by simp)
  · rcases op with - | p
    · rw [hb] at h
      dsimp only at h
      obtain rfl := Option.some.inj h
      exact Nat.le_refl _
    · rw [hb] at h
      dsimp only at h
      split_ifs at h with hpop
      · obtain rfl := Option.some.inj h
        exact popFives_points_mono ..
      · exact le_trans (popFives_points_mono ..)
          (rc_match_points_mono rand crand rcFuel _ res h)

/-! ### Claim theorems -/

/-- C1: whenever `getPath` reports `found = true`, the returned path is a
sequence of orthogonally-adjacent cells beginning at `start` and ending at
`end`, all its cells other than `start` are in-bounds empty cells (and with
an in-bounds `start` every cell is in-bounds), and its length is minimal
among all such routes through empty cells. -/
theorem getPath_minimal (field : Pos → ℤ) (s e : Pos) (fuel : ℕ) (p : List Pos)
    (h : getPath field s e fuel = some (some p)) :
    ValidPath field s e p ∧ (inB s → ∀ c ∈ p, inB c) ∧
      ∀ l, ValidPath field s e l → p.length ≤ l.length := by
  have hmain := bfs_main fuel ∅ [(s, [])] p (bfsInv_init field s e) h
  refine ⟨hmain.1, ?_, hmain.2⟩
  intro hs c hc
  obtain ⟨⟨hhead, -, htail⟩, -⟩ := hmain.1
  rcases p with - | ⟨a, t⟩
  · cases hc
  · obtain rfl : a = s := by simpa using hhead
    rcases List.mem_cons.mp hc with rfl | hc
    · exact hs
    · exact (htail c hc).1

/-- Witness for C1 at a concrete search: the straight two-cell route on the
empty board. -/
theorem getPath_minimal_witness :
    ValidPath (fun _ => 0) (0, 0) (0, 1) [(0, 0), (0, 1)] ∧
      (inB (0, 0) → ∀ c ∈ ([(0, 0), (0, 1)] : List Pos), inB c) ∧
      ∀ l, ValidPath (fun _ => 0) (0, 0) (0, 1) l →
        ([(0, 0), (0, 1)] : List Pos).length ≤ l.length :=
  getPath_minimal (fun _ => 0) (0, 0) (0, 1) 2 [(0, 0), (0, 1)] (by decide)

/-- C5: a start-equals-end query succeeds immediately with the one-cell path,
for every grid and every coordinate, whatever occupies the cell or its
neighbours (any positive fuel suffices: the first dequeue returns). -/
theorem getPath_self (field : Pos → ℤ) (c : Pos) (n : ℕ) :
    getPath field c c (n + 1) = some (some [c]) := by
  simp [getPath, bfsRun]

/-- C6: a found path never passes through an occupied cell other than the
start, and with distinct endpoints the target cell itself must be empty. -/
theorem getPath_avoids_occupied (field : Pos → ℤ) (s e : Pos) (fuel : ℕ)
    (p : List Pos) (h : getPath field s e fuel = some (some p)) :
    (∀ c ∈ p, c ≠ s → inB c ∧ field c = 0) ∧ (s ≠ e → field e = 0) := by
  have hmain := bfs_main fuel ∅ [(s, [])] p (bfsInv_init field s e) h
  obtain ⟨⟨⟨hhead, -, htail⟩, hlast⟩, -⟩ := hmain
  have part1 : ∀ c ∈ p, c ≠ s → inB c ∧ field c = 0 := by
    intro c hc hcs
    rcases p with - | ⟨a, t⟩
    · cases hc
    · obtain rfl : a = s := by simpa using hhead
      rcases List.mem_cons.mp hc with rfl | hc
      · exact absurd rfl hcs
      · exact htail c hc
  refine ⟨part1, fun hse => ?_⟩
  have hep : e ∈ p := List.mem_of_mem_getLast? (by rw [hlast]; rfl)
  exact (part1 e hep (Ne.symm hse)).2

/-- Witness for C6 at a concrete search on the empty board. -/
theorem getPath_avoids_occupied_witness :
    (∀ c ∈ ([(0, 0), (0, 1), (1, 1)] : List Pos), c ≠ (0, 0) →
      inB c ∧ (fun _ => (0 : ℤ)) c = 0) ∧
      (((0, 0) : Pos) ≠ (1, 1) → (fun _ => (0 : ℤ)) (1, 1) = 0) :=
  getPath_avoids_occupied (fun _ => 0) (0, 0) (1, 1) 5 [(0, 0), (0, 1), (1, 1)]
    (by decide)

/-- C7: the score counter never decreases under any engine operation
(`popFives`, `randomCells`, the move branch of `handleClicks`), and one
`popFives` run on a field with no leftover deletion marks adds exactly the
cardinality of the clear-set. -/
theorem score_spec :
    (∀ (g : Pos → Option Color) (field : Pos → ℤ) (pts : ℕ),
      (∀ c, inB c → field c ≠ -1) →
      (popFives g field pts).points = pts + (detect g).card) ∧
    (∀ (g : Pos → Option Color) (field : Pos → ℤ) (pts : ℕ),
      pts ≤ (popFives g field pts).points) ∧
    (∀ (rand : ℕ → Fin size × Fin size) (crand : ℕ → Color) (fuel : ℕ)
      (st : SpState) (out : RCOut),
      randomCells rand crand fuel st = some out → st.points ≤ out.st.points) ∧
    (∀ (rand : ℕ → Fin size × Fin size) (crand : ℕ → Color) (bfsFuel rcFuel : ℕ)
      (sel coords : Pos) (st : SpState) (res : SpState × Option Pos),
      handleTarget rand crand bfsFuel rcFuel sel coords st = some res →
      st.points ≤ res.1.points) :=
  ⟨popFives_points_exact, popFives_points_mono, randomCells_points_mono,
    handleTarget_points_mono⟩

/-- Witness for C7: a clean field scores exactly the clear-set of the
example grid. -/
theorem score_spec_witness :
    (popFives gEx (fun _ => 0) 0).points = 0 + (detect gEx).card :=
  score_spec.1 gEx (fun _ => 0) 0 (fun c _ => by norm_num)

/-- C8: both fuelled loops terminate on every input: `getPath` despite
cells being marked visited on dequeue (so duplicate queue entries occur),
and the `randomCells` placement loop for every random sequence despite the
loop variable being re-incremented on collisions. -/
theorem engine_terminates :
    (∀ (field : Pos → ℤ) (s e : Pos), ∃ n, (getPath field s e n).isSome) ∧
    (∀ (rand : ℕ → Fin size × Fin size) (crand : ℕ → Color) (st : SpState),
      ∃ n, (randLoop rand crand n ballCount 0 st).isSome) := by
  constructor
  · intro field s e
    refine bfs_term_aux field s e _ _ ∅ [(s, [])] ?_ rfl rfl
    intro ent hent
    obtain rfl : ent = (s, []) := by simpa using hent
    exact Finset.mem_insert_self _ _
  · intro rand crand st
    exact ⟨ballCount * (size * size + 2) + (size * size + 1 - 0) + 1,
      randLoop_fuel rand crand _ ballCount 0 st (by omega) (by omega)⟩

/-- C9: when the path search fails, the target click only clears the
selection; the whole engine state (grid occupancy and colours included) is
returned unchanged. -/
theorem target_not_found (rand : ℕ → Fin size × Fin size) (crand : ℕ → Color)
    (bfsFuel rcFuel : ℕ) (sel coords : Pos) (st : SpState)
    (h : bfsRun st.field coords bfsFuel ∅ [(sel, [])] = some none) :
    handleTarget rand crand bfsFuel rcFuel sel coords st = some (st, none) := by
  unfold handleTarget
  rw [h]

/-- Concrete grid for the C9 witness: the selected corner marker is walled
in, so no target is reachable. -/
def stC9 : SpState :=
  ⟨fun c => if c = (0, 1) ∨ c = (1, 0) then 1 else 0, fun _ => none, [], [], 0, 0, 0⟩

/-- Witness for C9: the walled-in corner rejects the move and leaves the
state untouched. -/
theorem target_not_found_witness :
    handleTarget (fun _ => (⟨0, by decide⟩, ⟨0, by decide⟩)) (fun _ => Color.red)
      2 0 (0, 0) (5, 5) stC9 = some (stC9, none) :=
  target_not_found _ _ 2 0 (0, 0) (5, 5) stC9 (by decide)

/-! ### The spawner claims: counterexamples and amended statements -/

/-- Board with a single occupied corner cell and a full colour queue. -/
def stC2 : SpState :=
  ⟨fun c => if c = (0, 0) then 1 else 0, fun _ => none,
    [Color.red, Color.red, Color.red], [], 0, 0, 0⟩

/-- An adversarial random sequence that always draws the corner `(0,0)`. -/
def randAdv : ℕ → Fin size × Fin size := fun _ => (⟨0, by decide⟩, ⟨0, by decide⟩)

/-- A constant colour stream. -/
def crandRed : ℕ → Color := fun _ => Color.red

/-- Counterexample to C2 as stated: on a board with 80 ≥ `ballCount` empty
cells, the adversarial draw sequence makes the loop finish without ending
the game yet placing zero markers — fewer than `ballCount` even though
plenty of empty cells existed. -/
theorem spawner_count_counterexample :
    (randLoop randAdv crandRed 100 ballCount 0 stC2).map
        (fun r => (r.1.placed.length, r.2)) = some (0, false) ∧
      ballCount ≤ emptyCount stC2.field := by
  constructor
  · decide
  · decide

/-- C2 (amended): a completed placement loop places at most `ballCount`
markers, into pairwise-distinct previously-empty cells, and ends the game
(Terminal) only when zero empty cells remain; fewer than `ballCount` may be
placed even when `ballCount` or more empty cells exist, namely when the
draws exceed the `N²` retry bound (see the counterexample). -/
theorem spawner_spec (rand : ℕ → Fin size × Fin size) (crand : ℕ → Color)
    (fuel : ℕ) (st res : SpState) (done : Bool)
    (h : randLoop rand crand fuel ballCount 0 st = some (res, done))
    (hst : st.placed = []) :
    res.placed.length ≤ ballCount ∧
    (res.placed.map Prod.fst).Nodup ∧
    (∀ pc ∈ res.placed, st.field pc.1 = 0) ∧
    (done = true → emptyCount res.field = 0) := by
  obtain ⟨new, hplaced, hlen, hnodup, hempty, -, -, hdone⟩ :=
    randLoop_inv rand crand fuel ballCount 0 st res done h
  rw [hplaced, hst, List.nil_append]
  exact ⟨hlen, hnodup, hempty, hdone⟩

/-- A fully occupied board. -/
def stFull : SpState := ⟨fun _ => 1, fun _ => none, [], [], 0, 0, 0⟩

/-- Witness for C2 (amended) on the full board: the loop ends the game with
zero empty cells and no placement. -/
theorem spawner_spec_witness :
    ({ stFull with k := 83 } : SpState).placed.length ≤ ballCount ∧
    ((({ stFull with k := 83 } : SpState).placed.map Prod.fst).Nodup) ∧
    (∀ pc ∈ ({ stFull with k := 83 } : SpState).placed, stFull.field pc.1 = 0) ∧
    (true = true → emptyCount ({ stFull with k := 83 } : SpState).field = 0) :=
  spawner_spec randAdv crandRed 100 stFull { stFull with k := 83 } true (by rfl) rfl

/-- A random sequence walking along row 0. -/
def randRow : ℕ → Fin size × Fin size := fun k =>
  (⟨0, by decide⟩, ⟨k % size, Nat.mod_lt _ (by decide)⟩)

/-- Empty board with the pending queue `[black, white, red]` (front first,
as shown to the player). -/
def stC3 : SpState :=
  ⟨fun _ => 0, fun _ => none, [Color.black, Color.white, Color.red], [], 0, 0, 0⟩

/-- Counterexample to C3 as stated: with queue `[black, white, red]` the
first marker placed receives `red` — the back of the queue — not the front
colour `black`; the batch is consumed newest-first. -/
theorem spawn_queue_counterexample :
    (randLoop randRow crandRed 10 ballCount 0 stC3).map (fun r => r.1.placed)
        = some [((0, 0), Color.red), ((0, 1), Color.white), ((0, 2), Color.black)] ∧
      stC3.queue = [Color.black, Color.white, Color.red] := by
  constructor
  · decide
  · decide

/-- C3 (amended): the spawner consumes colours from the BACK of the pending
queue (JS `pop`, newest-first): the colours of the placed markers are the
reversed queue, in order, and the queue shrinks from the back; after a
completed non-terminal batch the queue is replaced by `ballCount` freshly
drawn colours. -/
theorem spawn_queue_spec :
    (∀ (rand : ℕ → Fin size × Fin size) (crand : ℕ → Color) (fuel i tc : ℕ)
      (st res : SpState) (done : Bool),
      randLoop rand crand fuel i tc st = some (res, done) →
      ∃ new : List (Pos × Color),
        res.placed = st.placed ++ new ∧
        (new.length ≤ st.queue.length →
          new.map Prod.snd = st.queue.reverse.take new.length ∧
          res.queue = st.queue.take (st.queue.length - new.length))) ∧
    (∀ (rand : ℕ → Fin size × Fin size) (crand : ℕ → Color) (fuel : ℕ)
      (st st₁ : SpState),
      randLoop rand crand fuel ballCount 0 st = some (st₁, false) →
      ∀ out, randomCells rand crand fuel st = some out →
        out.st.queue = (List.range ballCount).map fun i => crand (st₁.ck + i)) := by
  constructor
  · exact randLoop_queue
  · intro rand crand fuel st st₁ h out hout
    unfold randomCells at hout
    rw [h] at hout
    dsimp only at hout
    obtain rfl := Option.some.inj hout
    rfl

/-- The state produced by the C3 run (definitionally, the loop's output). -/
def runC3res : SpState :=
  match randLoop randRow crandRed 10 ballCount 0 stC3 with
  | some r => r.1
  | none => stC3

/-- Witness for C3 (amended) on the concrete run. -/
theorem spawn_queue_spec_witness :
    ∃ new : List (Pos × Color),
      runC3res.placed = stC3.placed ++ new ∧
      (new.length ≤ stC3.queue.length →
        new.map Prod.snd = stC3.queue.reverse.take new.length ∧
        runC3res.queue = stC3.queue.take (stC3.queue.length - new.length)) :=
  spawn_queue_spec.1 randRow crandRed 10 ballCount 0 stC3 runC3res false (by rfl)

/-! ### C10: every spawn batch ends in a `popFives` run -/

/-- Board with four red markers at (0,0)..(0,3); the queue ends in red. -/
def stC10 : SpState :=
  ⟨fun c => if c.1 = 0 ∧ 0 ≤ c.2 ∧ c.2 < 4 then 1 else 0,
    fun c => if c.1 = 0 ∧ 0 ≤ c.2 ∧ c.2 < 4 then some Color.red else none,
    [Color.blue, Color.blue, Color.red], [], 7, 0, 0⟩

/-- A random sequence whose first draw completes the red row at (0,4) and
whose later draws fall on row 8. -/
def randC10 : ℕ → Fin size × Fin size := fun k =>
  if k = 0 then (⟨0, by decide⟩, ⟨4, by decide⟩)
  else (⟨8, by decide⟩, ⟨k % size, Nat.mod_lt _ (by decide)⟩)

/-- C10: a non-terminal placement loop is always followed by `popFives` on
the post-spawn grid (the call literally ends in it after refilling the
queue); that `popFives` reports Terminal exactly when the cleared grid has
zero empty cells; and on the concrete board a marker spawned into a line of
five is cleared and scored in the same call (score 7 → 12, cells emptied). -/
theorem randomCells_runs_popFives :
    (∀ (rand : ℕ → Fin size × Fin size) (crand : ℕ → Color) (fuel : ℕ)
      (st st₁ : SpState),
      randLoop rand crand fuel ballCount 0 st = some (st₁, false) →
      randomCells rand crand fuel st =
        some ⟨{ st₁ with
            queue := (List.range ballCount).map fun i => crand (st₁.ck + i),
            ck := st₁.ck + ballCount,
            g := (popFives st₁.g st₁.field st₁.points).g,
            field := (popFives st₁.g st₁.field st₁.points).field,
            points := (popFives st₁.g st₁.field st₁.points).points },
          (popFives st₁.g st₁.field st₁.points).terminal,
          (popFives st₁.g st₁.field st₁.points).popped⟩) ∧
    (∀ (g : Pos → Option Color) (field : Pos → ℤ) (pts : ℕ),
      (popFives g field pts).terminal = true ↔
        emptyCount (popFives g field pts).field = 0) ∧
    ((randomCells randC10 crandRed 20 stC10).map fun out =>
        (out.st.points, out.popped, out.terminal, out.st.field (0, 0),
          out.st.field (0, 4), out.st.g (0, 2))) =
      some (12, true, false, 0, 0, none) := by
  refine ⟨?_, ?_, ?_⟩
  · intro rand crand fuel st st₁ h
    unfold randomCells
    rw [h]
  · intro g field pts
    simp [popFives]
  · rfl

/-- The state produced by the C10 placement loop. -/
def runC10res : SpState :=
  match randLoop randC10 crandRed 20 ballCount 0 stC10 with
  | some r => r.1
  | none => stC10

/-- Witness for C10 on the concrete run. -/
theorem randomCells_runs_popFives_witness :
    randomCells randC10 crandRed 20 stC10 =
      some ⟨{ runC10res with
          queue := (List.range ballCount).map fun i => crandRed (runC10res.ck + i),
          ck := runC10res.ck + ballCount,
          g := (popFives runC10res.g runC10res.field runC10res.points).g,
          field := (popFives runC10res.g runC10res.field runC10res.points).field,
          points := (popFives runC10res.g runC10res.field runC10res.points).points },
        (popFives runC10res.g runC10res.field runC10res.points).terminal,
        (popFives runC10res.g runC10res.field runC10res.points).popped⟩ :=
  randomCells_runs_popFives.1 randC10 crandRed 20 stC10 runC10res (by rfl)
